import Mathlib

/-!
Verification of the numerical utilities module (safe_learning/utilities.py):
the Combination Enumerator (combinations), the Grid Builder
(linearly_spaced_combinations), the LQR Synthesizer (lqr) and the Ellipse
Boundary Extractor (ellipse_bounds).  Pure array computations are embedded
over ℚ; the trigonometric and linear-algebraic computations over ℝ.
-/

namespace SafeLearning

open scoped List Matrix

/-- Lexicographic Cartesian product of a list of coordinate lists, first
coordinate varying slowest: the mathematical Cartesian product, written from
the specification (every tuple formed by choosing one element per input list,
each exactly once).  It also serves as the building block of the source-side
embedding of the meshgrid reshape below. -/
def cartProd {α : Type} : List (List α) → List (List α)
  | [] => [[]]
  | a :: rest => a.flatMap fun v => (cartProd rest).map fun t => v :: t

/-- Embedding of combinations(arrays) from utilities.py, which computes
np.array(np.meshgrid(*arrays)).T.reshape(-1, len(arrays)).
For inputs a1 .. ad with d >= 2, np.meshgrid produces d arrays of shape
(n2, n1, n3, ..., nd); stacking gives shape (d, n2, n1, n3, ..., nd); the
transpose reverses the axes to (nd, ..., n3, n1, n2, d); the reshape then
emits one row per index tuple (i_d, ..., i_3, i_1, i_2) in row-major order,
the row for that tuple being (a1[i1], ..., ad[id]).  The embedding therefore
enumerates the Cartesian product of the reordered inputs
[ad, ..., a3, a1, a2] lexicographically and restores the coordinate order
inside each row.  For d = 1 the reshape yields the input as one column. -/
def combinations {α : Type} : List (List α) → List (List α)
  | [] => []
  | [a] => a.map fun v => [v]
  | a :: b :: rest =>
    (cartProd (rest.reverse ++ [a, b])).map fun r =>
      r.drop rest.length ++ (r.take rest.length).reverse

/-- Embedding of np.linspace(a, b, n) (endpoint inclusive): the i-th of the n
values is a + i*(b-a)/(n-1).  For n = 1 numpy returns the single value a; here
the same results from division by zero yielding zero. -/
def npLinspace {α : Type} [Field α] (a b : α) (n : ℕ) : List α :=
  (List.range n).map fun (i : ℕ) => a + (i : α) * ((b - a) / ((n - 1 : ℕ) : α))

/-- The sample-count argument of linearly_spaced_combinations: the Python code
distinguishes a scalar from a sequence with isinstance(num_samples, Sequence). -/
inductive NumSamples
  | scalar (n : ℕ)
  | seq (l : List ℕ)

/-- The per-dimension counts after the scalar-broadcast step of the source
(num_samples = [num_samples] * num_vars); a sequence is kept as is. -/
def effectiveCounts (d : ℕ) : NumSamples → List ℕ
  | .scalar s => List.replicate d s
  | .seq l => l

/-- Embedding of linearly_spaced_combinations(bounds, num_samples) from
utilities.py: broadcast a scalar count to every dimension, zip the bounds with
the counts (Python zip truncates to the shorter list; no length check is
performed), build the per-dimension linspaces and enumerate all combinations. -/
def linearly_spaced_combinations (bounds : List (ℚ × ℚ)) (ns : NumSamples) :
    List (List ℚ) :=
  combinations ((bounds.zip (effectiveCounts bounds.length ns)).map fun p =>
    npLinspace p.1.1 p.1.2 p.2)

/-! ### Properties of the Cartesian product -/

theorem cartProd_length {α : Type} (L : List (List α)) :
    (cartProd L).length = (L.map List.length).prod := by
  induction L with
  | nil => rfl
  | cons a rest ih =>
    simp [cartProd, List.length_flatMap, Function.comp_def, List.map_const',
      List.sum_replicate, smul_eq_mul, ih]

theorem length_of_mem_cartProd {α : Type} {L : List (List α)} {r : List α}
    (h : r ∈ cartProd L) : r.length = L.length := by
  induction L generalizing r with
  | nil => simp [cartProd] at h; simp [h]
  | cons a rest ih =>
    simp only [cartProd, List.mem_flatMap, List.mem_map] at h
    obtain ⟨v, -, t, ht, rfl⟩ := h
    simp [ih ht]

theorem mem_cartProd {α : Type} {L : List (List α)} {r : List α} :
    r ∈ cartProd L ↔ List.Forall₂ (fun v a => v ∈ a) r L := by
  induction L generalizing r with
  | nil =>
    simp [cartProd, List.forall₂_nil_right_iff]
  | cons a rest ih =>
    simp only [cartProd, List.mem_flatMap, List.mem_map,
      List.forall₂_cons_right_iff]
    constructor
    · rintro ⟨v, hv, t, ht, rfl⟩
      exact ⟨v, t, hv, ih.mp ht, rfl⟩
    · rintro ⟨v, t, hv, ht, rfl⟩
      exact ⟨v, hv, t, ih.mpr ht, rfl⟩

theorem cartProd_singleton {α : Type} (a : List α) :
    cartProd [a] = a.map fun v => [v] := by
  induction a with
  | nil => rfl
  | cons x xs ih => simp only [cartProd] at ih ⊢; simp_all

theorem cartProd_pair {α : Type} (a b : List α) :
    cartProd [a, b] = a.flatMap fun v => b.map fun w => [v, w] := by
  rw [show cartProd [a, b] = a.flatMap fun v => (cartProd [b]).map fun t => v :: t
    from rfl, cartProd_singleton]
  simp [List.map_map, Function.comp_def]

theorem cartProd_append {α : Type} (xs ys : List (List α)) :
    cartProd (xs ++ ys) =
      (cartProd xs).flatMap fun p => (cartProd ys).map fun q => p ++ q := by
  induction xs with
  | nil => simp [cartProd]
  | cons a xs ih =>
    simp only [List.cons_append, cartProd, List.append_eq, ih,
      List.map_flatMap, List.flatMap_assoc, List.flatMap_map, List.map_map,
      Function.comp_def]

theorem cartProd_nodup {α : Type} {L : List (List α)}
    (h : ∀ a ∈ L, a.Nodup) : (cartProd L).Nodup := by
  induction L with
  | nil => simp [cartProd]
  | cons a rest ih =>
    rw [cartProd, List.nodup_flatMap]
    refine ⟨fun v _ => List.Nodup.map (fun s t hst => by injection hst)
      (ih fun b hb => h b (List.mem_cons_of_mem _ hb)), ?_⟩
    have ha := h a (List.mem_cons_self a rest)
    refine List.Pairwise.imp ?_ ha
    intro v w hvw
    simp only [List.disjoint_left, List.mem_map]
    rintro r ⟨t, -, rfl⟩ ⟨t2, -, h2⟩
    exact hvw (by injection h2 with h3 _; exact h3.symm ▸ rfl)

theorem coe_flatMap {α β : Type} (l : List α) (f : α → List β) :
    ((l.flatMap f : List β) : Multiset β) = Multiset.bind (↑l) fun a => ↑(f a) :=
  (Multiset.coe_bind l f).symm

theorem flatMap_map_swap {α β γ : Type} (l1 : List α) (l2 : List β)
    (f : α → β → γ) :
    (l1.flatMap fun a => l2.map fun b => f a b) ~
      l2.flatMap fun b => l1.map fun a => f a b := by
  rw [← Multiset.coe_eq_coe, coe_flatMap, coe_flatMap]
  simp only [← Multiset.map_coe]
  exact Multiset.bind_map_comm _ _

theorem flatMap_flatMap_swap {α β γ : Type} (l1 : List α) (l2 : List β)
    (f : α → β → List γ) :
    (l1.flatMap fun a => l2.flatMap fun b => f a b) ~
      l2.flatMap fun b => l1.flatMap fun a => f a b := by
  rw [← Multiset.coe_eq_coe, coe_flatMap, coe_flatMap]
  calc (Multiset.bind (↑l1) fun a => ((l2.flatMap fun b => f a b : List γ) :
          Multiset γ))
      = Multiset.bind (↑l1) fun a => Multiset.bind (↑l2) fun b => ↑(f a b) :=
        Multiset.bind_congr fun a _ => coe_flatMap _ _
    _ = Multiset.bind (↑l2) fun b => Multiset.bind (↑l1) fun a => ↑(f a b) :=
        Multiset.bind_bind _ _
    _ = Multiset.bind (↑l2) fun b => ((l1.flatMap fun a => f a b : List γ) :
          Multiset γ) :=
        Multiset.bind_congr fun b _ => (coe_flatMap _ _).symm

theorem cartProd_reverse_perm {α : Type} (xs : List (List α)) :
    (cartProd xs.reverse).map List.reverse ~ cartProd xs := by
  induction xs with
  | nil => simp [cartProd]
  | cons a xs ih =>
    have h1 : cartProd (a :: xs).reverse =
        (cartProd xs.reverse).flatMap fun p => a.map fun v => p ++ [v] := by
      rw [List.reverse_cons, cartProd_append, cartProd_singleton]
      simp [List.map_map, Function.comp_def]
    rw [h1, List.map_flatMap]
    simp only [List.map_map, Function.comp_def, List.reverse_append,
      List.reverse_cons, List.reverse_nil, List.nil_append,
      List.singleton_append]
    calc (cartProd xs.reverse).flatMap (fun p => a.map fun v => v :: p.reverse)
        ~ a.flatMap fun v => (cartProd xs.reverse).map fun p => v :: p.reverse :=
          flatMap_map_swap _ _ _
      _ ~ a.flatMap fun v => (cartProd xs).map fun t => v :: t := by
          refine List.Perm.flatMap_left _ fun v _ => ?_
          have := (ih.map fun t => v :: t)
          simpa [List.map_map, Function.comp_def] using this
      _ = cartProd (a :: xs) := rfl

theorem combinations_perm {α : Type} (L : List (List α)) (h : 1 ≤ L.length) :
    combinations L ~ cartProd L := by
  match L with
  | [a] => rw [combinations, cartProd_singleton]
  | a :: b :: rest =>
    rw [combinations, cartProd_append, cartProd_pair, List.map_flatMap]
    have hstep : ∀ p ∈ cartProd rest.reverse,
        ((a.flatMap fun v => b.map fun w => [v, w]).map fun q => p ++ q).map
            (fun r => r.drop rest.length ++ (r.take rest.length).reverse) =
          a.flatMap fun v => b.map fun w => v :: w :: p.reverse := by
      intro p hp
      have hlen : p.length = rest.length := by
        simpa using length_of_mem_cartProd hp
      simp only [List.map_flatMap, List.map_map, Function.comp_def]
      refine List.flatMap_congr ?_
      intro v _
      refine List.map_congr_left fun w _ => ?_
      rw [← hlen, List.drop_left, List.take_left]
      rfl
    calc (cartProd rest.reverse).flatMap
          (fun p => ((a.flatMap fun v => b.map fun w => [v, w]).map
            fun q => p ++ q).map
              fun r => r.drop rest.length ++ (r.take rest.length).reverse)
        = (cartProd rest.reverse).flatMap
            fun p => a.flatMap fun v => b.map fun w => v :: w :: p.reverse :=
          List.flatMap_congr hstep
      _ ~ a.flatMap fun v => (cartProd rest.reverse).flatMap
            fun p => b.map fun w => v :: w :: p.reverse :=
          flatMap_flatMap_swap _ _ _
      _ ~ a.flatMap fun v => b.flatMap fun w =>
            (cartProd rest.reverse).map fun p => v :: w :: p.reverse := by
          refine List.Perm.flatMap_left _ fun v _ => ?_
          exact flatMap_map_swap _ _ _
      _ ~ a.flatMap fun v => b.flatMap fun w =>
            (cartProd rest).map fun t => v :: w :: t := by
          refine List.Perm.flatMap_left _ fun v _ => ?_
          refine List.Perm.flatMap_left _ fun w _ => ?_
          have := (cartProd_reverse_perm rest).map fun t => v :: w :: t
          simpa [List.map_map, Function.comp_def] using this
      _ = cartProd (a :: b :: rest) := by
          simp only [cartProd, List.map_flatMap, List.map_map,
            Function.comp_def]

/-! ### C2: the Combination Enumerator realises the Cartesian product -/

/-- C2: for every d ≥ 1 and every list of d coordinate arrays, combinations
returns a table with (product of the lengths) rows and d columns whose rows
are exactly the mathematical Cartesian product of the inputs: membership of a
row is equivalent to choosing one element per input array, the rows form the
same multiset as the reference Cartesian product (so, for duplicate-free
inputs, every tuple appears exactly once and the table is duplicate-free), a
length-0 input yields an empty table, and a single input array is returned as
one column. -/
theorem combinations_cartesian_product (L : List (List ℚ)) (h : 1 ≤ L.length) :
    (combinations L).length = (L.map List.length).prod ∧
    (∀ r ∈ combinations L, r.length = L.length) ∧
    ((combinations L : Multiset (List ℚ)) = (cartProd L : Multiset (List ℚ))) ∧
    (∀ r : List ℚ, r ∈ combinations L ↔ List.Forall₂ (fun v a => v ∈ a) r L) ∧
    ((∀ a ∈ L, a.Nodup) → (combinations L).Nodup) ∧
    ((∃ a ∈ L, a = ([] : List ℚ)) → combinations L = []) ∧
    (∀ a : List ℚ, L = [a] → combinations L = a.map fun v => [v]) := by
  have perm := combinations_perm L h
  have hlen : (combinations L).length = (L.map List.length).prod :=
    perm.length_eq.trans (cartProd_length L)
  refine ⟨hlen, ?_, Multiset.coe_eq_coe.mpr perm, ?_, ?_, ?_, ?_⟩
  · exact fun r hr => length_of_mem_cartProd (perm.mem_iff.mp hr)
  · exact fun r => perm.mem_iff.trans mem_cartProd
  · exact fun hn => perm.nodup_iff.mpr (cartProd_nodup hn)
  · rintro ⟨a, ha, rfl⟩
    have h0 : (combinations L).length = 0 := by
      rw [hlen]
      exact List.prod_eq_zero (List.mem_map.mpr ⟨[], ha, rfl⟩)
    exact List.length_eq_zero.mp h0
  · rintro a rfl
    rfl

theorem combinations_cartesian_product_witness :
    1 ≤ ([[(1 : ℚ), 2], [3]] : List (List ℚ)).length ∧
    ((combinations [[(1 : ℚ), 2], [3]]).length =
        (([[(1 : ℚ), 2], [3]] : List (List ℚ)).map List.length).prod ∧
      (∀ r ∈ combinations [[(1 : ℚ), 2], [3]],
        r.length = ([[(1 : ℚ), 2], [3]] : List (List ℚ)).length) ∧
      ((combinations [[(1 : ℚ), 2], [3]] : Multiset (List ℚ)) =
        (cartProd [[(1 : ℚ), 2], [3]] : Multiset (List ℚ))) ∧
      (∀ r : List ℚ, r ∈ combinations [[(1 : ℚ), 2], [3]] ↔
        List.Forall₂ (fun v a => v ∈ a) r [[(1 : ℚ), 2], [3]]) ∧
      ((∀ a ∈ ([[(1 : ℚ), 2], [3]] : List (List ℚ)), a.Nodup) →
        (combinations [[(1 : ℚ), 2], [3]]).Nodup) ∧
      ((∃ a ∈ ([[(1 : ℚ), 2], [3]] : List (List ℚ)), a = ([] : List ℚ)) →
        combinations [[(1 : ℚ), 2], [3]] = []) ∧
      (∀ a : List ℚ, ([[(1 : ℚ), 2], [3]] : List (List ℚ)) = [a] →
        combinations [[(1 : ℚ), 2], [3]] = a.map fun v => [v])) :=
  ⟨by norm_num, combinations_cartesian_product _ (by norm_num)⟩

/-! ### C10: row ordering of the Combination Enumerator for two inputs -/

theorem flatMap_getElem_blocks {α β : Type} (x : List α) (f : α → List β)
    (n : ℕ) (hf : ∀ v, (f v).length = n) :
    ∀ (i1 i2 : ℕ), i2 < n → ∀ (h1 : i1 < x.length),
      (x.flatMap f)[i1 * n + i2]? = (f (x.get ⟨i1, h1⟩))[i2]? := by
  induction x with
  | nil => intro i1 i2 _ h1; simp at h1
  | cons v xs ih =>
    intro i1 i2 h2 h1
    cases i1 with
    | zero =>
      rw [List.flatMap_cons, Nat.zero_mul, Nat.zero_add,
        List.getElem?_append_left (by rw [hf]; exact h2)]
      rfl
    | succ j =>
      have harith : (j + 1) * n + i2 = (f v).length + (j * n + i2) := by
        rw [hf]; ring
      rw [List.flatMap_cons, harith, List.getElem?_append_right
        (Nat.le_add_right _ _), Nat.add_sub_cancel_left]
      exact ih j i2 h2 (Nat.lt_of_succ_lt_succ h1)

theorem combinations_pair_eq (x y : List ℚ) :
    combinations [x, y] = x.flatMap fun v => y.map fun w => [v, w] := by
  show (cartProd (List.reverse [] ++ [x, y])).map _ = _
  rw [List.reverse_nil, List.nil_append, cartProd_pair]
  simp

/-- C10: for two input arrays x and y, combinations returns its rows in the
fixed order in which the first coordinate varies slowest: the row at position
i1 * y.length + i2 is the pair (x[i1], y[i2]). -/
theorem combinations_pair_order (x y : List ℚ) (i1 i2 : ℕ)
    (h1 : i1 < x.length) (h2 : i2 < y.length) :
    (combinations [x, y])[i1 * y.length + i2]? =
      some [x.get ⟨i1, h1⟩, y.get ⟨i2, h2⟩] := by
  rw [combinations_pair_eq,
    flatMap_getElem_blocks x _ y.length (fun v => List.length_map y _) i1 i2 h2 h1,
    List.getElem?_map, List.getElem?_eq_getElem h2]
  rfl

theorem combinations_pair_order_witness :
    1 < ([(1 : ℚ), 2] : List ℚ).length ∧ 0 < ([(3 : ℚ), 4] : List ℚ).length ∧
      (combinations [[(1 : ℚ), 2], [3, 4]])[1 * 2 + 0]? = some [2, 3] := by
  refine ⟨by norm_num, by norm_num, ?_⟩
  have h := combinations_pair_order [(1 : ℚ), 2] [3, 4] 1 0
    (by norm_num) (by norm_num)
  simpa using h

/-! ### Properties of npLinspace and the Grid Builder -/

theorem npLinspace_length {α : Type} [Field α] (a b : α) (n : ℕ) :
    (npLinspace a b n).length = n := by
  rw [npLinspace, List.length_map, List.length_range]

theorem npLinspace_getElem {α : Type} [Field α] (a b : α) {n i : ℕ}
    (h : i < n) :
    (npLinspace a b n)[i]? =
      some (a + (i : α) * ((b - a) / ((n - 1 : ℕ) : α))) := by
  rw [npLinspace, List.getElem?_map, List.getElem?_range h]
  rfl

theorem npLinspace_one {α : Type} [Field α] (a b : α) :
    npLinspace a b 1 = [a] := by
  rw [npLinspace, List.range_succ, List.range_zero]
  norm_num

theorem npLinspace_mem_bounds {a b x : ℚ} {n : ℕ} (hab : a ≤ b)
    (hx : x ∈ npLinspace a b n) : a ≤ x ∧ x ≤ b := by
  rw [npLinspace] at hx
  obtain ⟨i, hi0, rfl⟩ := List.mem_map.mp hx
  have hi : i < n := List.mem_range.mp hi0
  have hba : (0 : ℚ) ≤ b - a := by linarith
  constructor
  · have : (0 : ℚ) ≤ (i : ℚ) * ((b - a) / ((n - 1 : ℕ) : ℚ)) :=
      mul_nonneg (Nat.cast_nonneg i) (div_nonneg hba (Nat.cast_nonneg _))
    linarith
  · have hstep : (i : ℚ) * ((b - a) / ((n - 1 : ℕ) : ℚ)) ≤ b - a := by
      rcases Nat.lt_or_ge n 2 with h1 | h1
      · have hi0eq : i = 0 := by omega
        subst hi0eq
        simpa using hba
      · have hpos : (0 : ℚ) < ((n - 1 : ℕ) : ℚ) := by
          have h2 : 1 ≤ n - 1 := by omega
          exact_mod_cast Nat.lt_of_lt_of_le Nat.zero_lt_one h2
        have hile : (i : ℚ) ≤ ((n - 1 : ℕ) : ℚ) := by
          have : i ≤ n - 1 := by omega
          exact_mod_cast this
        rw [← mul_div_assoc, div_le_iff₀ hpos]
        calc (i : ℚ) * (b - a) ≤ ((n - 1 : ℕ) : ℚ) * (b - a) :=
              mul_le_mul_of_nonneg_right hile hba
          _ = (b - a) * ((n - 1 : ℕ) : ℚ) := mul_comm _ _
    linarith

/-! ### C3: the Grid Builder -/

/-- C3: for a bounds list with min ≤ max in every dimension and a valid
sample-count specification (a scalar, or a sequence of the same length as the
bounds), the Grid Builder returns a table whose row count is the product of
the effective per-dimension counts, every value in column i lies in the
closed interval of bounds i, and a dimension with count 1 always carries its
lower bound. -/
theorem linearly_spaced_combinations_spec (bounds : List (ℚ × ℚ))
    (ns : NumSamples) (hd : 1 ≤ bounds.length)
    (hb : ∀ p ∈ bounds, p.1 ≤ p.2)
    (hns : (effectiveCounts bounds.length ns).length = bounds.length) :
    (linearly_spaced_combinations bounds ns).length =
      (effectiveCounts bounds.length ns).prod ∧
    (∀ r ∈ linearly_spaced_combinations bounds ns, ∀ i, i < bounds.length →
      (bounds.getD i 0).1 ≤ r.getD i 0 ∧ r.getD i 0 ≤ (bounds.getD i 0).2) ∧
    (∀ r ∈ linearly_spaced_combinations bounds ns, ∀ i, i < bounds.length →
      (effectiveCounts bounds.length ns).getD i 0 = 1 →
        r.getD i 0 = (bounds.getD i 0).1) := by
  set ec := effectiveCounts bounds.length ns with hec
  set inputs := (bounds.zip ec).map
    (fun p => npLinspace p.1.1 p.1.2 p.2) with hinputs
  have hzlen : (bounds.zip ec).length = bounds.length := by
    rw [List.length_zip, hns, Nat.min_self]
  have hilen : inputs.length = bounds.length := by
    rw [hinputs, List.length_map, hzlen]
  have hd2 : 1 ≤ inputs.length := hilen ▸ hd
  have perm := combinations_perm inputs hd2
  have hin_get : ∀ i (hi : i < bounds.length),
      inputs.get ⟨i, hilen ▸ hi⟩ =
        npLinspace (bounds.getD i 0).1 (bounds.getD i 0).2 (ec.getD i 0) := by
    intro i hi
    have hi2 : i < (bounds.zip ec).length := hzlen ▸ hi
    have hiec : i < ec.length := by rw [hns]; exact hi
    simp only [hinputs, List.get_eq_getElem, List.getElem_map]
    rw [List.getElem_zip]
    rw [List.getD_eq_getElem bounds 0 hi, List.getD_eq_getElem ec 0 hiec]
  have hmem : ∀ r ∈ linearly_spaced_combinations bounds ns,
      ∀ i, i < bounds.length →
        r.getD i 0 ∈ npLinspace (bounds.getD i 0).1 (bounds.getD i 0).2
          (ec.getD i 0) := by
    intro r hr i hi
    have hr2 : List.Forall₂ (fun v a => v ∈ a) r inputs :=
      mem_cartProd.mp (perm.mem_iff.mp hr)
    obtain ⟨hrl, hget⟩ := List.forall₂_iff_get.mp hr2
    have hir : i < r.length := by rw [hrl, hilen]; exact hi
    have := hget i hir (hilen ▸ hi)
    rw [hin_get i hi] at this
    rwa [List.getD_eq_getElem r 0 hir]
  refine ⟨?_, ?_, ?_⟩
  · rw [linearly_spaced_combinations, ← hec, ← hinputs,
      perm.length_eq, cartProd_length]
    have : inputs.map List.length = ec := by
      rw [hinputs, List.map_map]
      have : (List.length ∘ fun p : (ℚ × ℚ) × ℕ => npLinspace p.1.1 p.1.2 p.2) =
          Prod.snd := by
        funext p
        simp [npLinspace_length]
      rw [this, List.map_snd_zip]
      rw [hns]
    rw [this]
  · intro r hr i hi
    have hmin : (bounds.getD i 0).1 ≤ (bounds.getD i 0).2 :=
      hb _ (List.getD_eq_getElem bounds 0 hi ▸ List.getElem_mem hi)
    exact npLinspace_mem_bounds hmin (hmem r hr i hi)
  · intro r hr i hi h1
    have := hmem r hr i hi
    rw [h1, npLinspace_one] at this
    simpa using this

theorem linearly_spaced_combinations_spec_witness :
    1 ≤ ([((0 : ℚ), 1), (2, 3)] : List (ℚ × ℚ)).length ∧
    (∀ p ∈ ([((0 : ℚ), 1), (2, 3)] : List (ℚ × ℚ)), p.1 ≤ p.2) ∧
    (effectiveCounts 2 (NumSamples.scalar 2)).length =
      ([((0 : ℚ), 1), (2, 3)] : List (ℚ × ℚ)).length ∧
    ((linearly_spaced_combinations [((0 : ℚ), 1), (2, 3)]
        (NumSamples.scalar 2)).length =
      (effectiveCounts 2 (NumSamples.scalar 2)).prod ∧
    (∀ r ∈ linearly_spaced_combinations [((0 : ℚ), 1), (2, 3)]
        (NumSamples.scalar 2), ∀ i,
      i < ([((0 : ℚ), 1), (2, 3)] : List (ℚ × ℚ)).length →
      (([((0 : ℚ), 1), (2, 3)] : List (ℚ × ℚ)).getD i 0).1 ≤ r.getD i 0 ∧
        r.getD i 0 ≤ (([((0 : ℚ), 1), (2, 3)] : List (ℚ × ℚ)).getD i 0).2) ∧
    (∀ r ∈ linearly_spaced_combinations [((0 : ℚ), 1), (2, 3)]
        (NumSamples.scalar 2), ∀ i,
      i < ([((0 : ℚ), 1), (2, 3)] : List (ℚ × ℚ)).length →
      (effectiveCounts 2 (NumSamples.scalar 2)).getD i 0 = 1 →
        r.getD i 0 = (([((0 : ℚ), 1), (2, 3)] : List (ℚ × ℚ)).getD i 0).1)) := by
  refine ⟨by norm_num, ?_, by simp [effectiveCounts], ?_⟩
  · intro p hp
    fin_cases hp <;> norm_num
  · exact linearly_spaced_combinations_spec [((0 : ℚ), 1), (2, 3)]
      (NumSamples.scalar 2) (by norm_num)
      (by intro p hp; fin_cases hp <;> norm_num) (by simp [effectiveCounts])

/-! ### C6: mismatched sample-count sequence length -/

/-- C6 counterexample: with one bound pair and a sample-count sequence of
length two, the Grid Builder raises nothing and returns an ordinary grid (the
extra count 5 is silently dropped by zip); the claimed ConfigurationError
does not exist in the code. -/
theorem lsc_mismatched_counts_counterexample :
    linearly_spaced_combinations [((0 : ℚ), 1)] (NumSamples.seq [3, 5]) =
      [[0], [1 / 2], [1]] ∧
    linearly_spaced_combinations [((0 : ℚ), 1)] (NumSamples.seq [3, 5]) ≠
      [] := by
  have h3 : npLinspace (0 : ℚ) 1 3 = [0, 1 / 2, 1] := by
    rw [npLinspace]
    norm_num [List.range_succ]
  have hval : linearly_spaced_combinations [((0 : ℚ), 1)]
      (NumSamples.seq [3, 5]) = [[0], [1 / 2], [1]] := by
    show combinations [npLinspace (0 : ℚ) 1 3] = _
    rw [h3]
    rfl
  refine ⟨hval, ?_⟩
  rw [hval]
  simp

/-- C6 (amended): a sample-count sequence whose length differs from the
number of bounds raises no error; Python zip silently truncates both lists to
the shorter length, so the result equals the grid over the first
min(d, len(num-samples)) dimensions. -/
theorem lsc_mismatched_counts_truncates (bounds : List (ℚ × ℚ)) (ns : List ℕ)
    (_h : ns.length ≠ bounds.length) :
    linearly_spaced_combinations bounds (NumSamples.seq ns) =
      linearly_spaced_combinations
        (bounds.take (min bounds.length ns.length))
        (NumSamples.seq (ns.take (min bounds.length ns.length))) := by
  unfold linearly_spaced_combinations effectiveCounts
  congr 2
  rw [List.zip_eq_zipWith, List.zip_eq_zipWith, ← List.take_zipWith]
  rw [List.take_of_length_le]
  rw [List.length_zipWith]

theorem lsc_mismatched_counts_truncates_witness :
    ([3, 5] : List ℕ).length ≠ ([((0 : ℚ), 1)] : List (ℚ × ℚ)).length ∧
    linearly_spaced_combinations [((0 : ℚ), 1)] (NumSamples.seq [3, 5]) =
      linearly_spaced_combinations
        (([((0 : ℚ), 1)] : List (ℚ × ℚ)).take
          (min ([((0 : ℚ), 1)] : List (ℚ × ℚ)).length ([3, 5] : List ℕ).length))
        (NumSamples.seq (([3, 5] : List ℕ).take
          (min ([((0 : ℚ), 1)] : List (ℚ × ℚ)).length
            ([3, 5] : List ℕ).length))) :=
  ⟨by decide, lsc_mismatched_counts_truncates [((0 : ℚ), 1)] [3, 5] (by decide)⟩

/-! ### The LQR Synthesizer -/

/-- The two error kinds of the specification: ConfigurationError for
structural precondition violations and NumericalError for numerical
failures. -/
inductive SLError
  | configurationError
  | numericalError
deriving DecidableEq

/-- Modelled from the spec: scipy.linalg.solve_continuous_are is an external
library routine; per the spec the continuous algebraic Riccati equation is
solved from the stable invariant subspace basis of the Hamiltonian matrix,
partitioned into blocks U1 (top) and U2 (bottom), as P = U2 U1⁻¹, and the
result is symmetrized (averaged with its transpose) to remove rounding
asymmetry. -/
noncomputable def riccatiP {n : ℕ} (U1 U2 : Matrix (Fin n) (Fin n) ℝ) :
    Matrix (Fin n) (Fin n) ℝ :=
  (2⁻¹ : ℝ) • (U2 * U1⁻¹ + (U2 * U1⁻¹)ᵀ)

/-- Modelled from the spec: the LQR Synthesizer lqr(A, B, Q, R).  The Riccati
solve is external (scipy.linalg.solve_continuous_are), so the stable
invariant-subspace basis (U1, U2) it computes is taken as an argument; the
gain is K = solve(R, Bᵀ P) = R⁻¹ Bᵀ P; per the spec a singular R is a
ConfigurationError. -/
noncomputable def lqr {n m : ℕ} (A : Matrix (Fin n) (Fin n) ℝ)
    (B : Matrix (Fin n) (Fin m) ℝ) (Q : Matrix (Fin n) (Fin n) ℝ)
    (R : Matrix (Fin m) (Fin m) ℝ) (U1 U2 : Matrix (Fin n) (Fin n) ℝ) :
    Except SLError (Matrix (Fin m) (Fin n) ℝ × Matrix (Fin n) (Fin n) ℝ) :=
  open scoped Classical in
  if IsUnit R.det then
    Except.ok (R⁻¹ * (Bᵀ * riccatiP U1 U2), riccatiP U1 U2)
  else
    Except.error SLError.configurationError

theorem riccatiP_eq_of_lagrangian {n : ℕ} {U1 U2 : Matrix (Fin n) (Fin n) ℝ}
    (hU : IsUnit U1.det) (hh : U2ᵀ * U1 = U1ᵀ * U2) :
    riccatiP U1 U2 = U2 * U1⁻¹ := by
  have hT : IsUnit (U1ᵀ).det := by rwa [Matrix.det_transpose]
  have h3 : U2ᵀ = U1ᵀ * U2 * U1⁻¹ := by
    calc U2ᵀ = U2ᵀ * (U1 * U1⁻¹) := by
          rw [Matrix.mul_nonsing_inv _ hU, Matrix.mul_one]
      _ = U2ᵀ * U1 * U1⁻¹ := by rw [Matrix.mul_assoc]
      _ = U1ᵀ * U2 * U1⁻¹ := by rw [hh]
  have hXsym : (U2 * U1⁻¹)ᵀ = U2 * U1⁻¹ := by
    calc (U2 * U1⁻¹)ᵀ = U1⁻¹ᵀ * U2ᵀ := by rw [Matrix.transpose_mul]
      _ = U1ᵀ⁻¹ * (U1ᵀ * U2 * U1⁻¹) := by
          rw [Matrix.transpose_nonsing_inv, h3]
      _ = U1ᵀ⁻¹ * U1ᵀ * U2 * U1⁻¹ := by
          rw [Matrix.mul_assoc, Matrix.mul_assoc, Matrix.mul_assoc]
      _ = U2 * U1⁻¹ := by
          rw [Matrix.nonsing_inv_mul _ hT, Matrix.one_mul]
  rw [riccatiP, hXsym, ← two_smul ℝ (U2 * U1⁻¹), smul_smul]
  norm_num

/-- C1: given an invertible R and a basis (U1, U2) of an invariant subspace of
the Hamiltonian matrix [[A, -B R⁻¹ Bᵀ], [-Q, -Aᵀ]] (with block equations h1,
h2 for some matrix Lam), with U1 invertible and U1ᵀ U2 positive semidefinite
(the Lagrangian property of the stable subspace, guaranteed for a
stabilizable/detectable system), the LQR Synthesizer returns the pair (K, P)
where P solves the continuous algebraic Riccati equation
Aᵀ P + P A - P B R⁻¹ Bᵀ P + Q = 0, P is symmetric, P is positive
semidefinite, and K = R⁻¹ Bᵀ P. -/
theorem lqr_correct {n m : ℕ} (A : Matrix (Fin n) (Fin n) ℝ)
    (B : Matrix (Fin n) (Fin m) ℝ) (Q : Matrix (Fin n) (Fin n) ℝ)
    (R : Matrix (Fin m) (Fin m) ℝ) (U1 U2 Lam : Matrix (Fin n) (Fin n) ℝ)
    (hR : IsUnit R.det) (hU : IsUnit U1.det)
    (h1 : A * U1 - B * R⁻¹ * Bᵀ * U2 = U1 * Lam)
    (h2 : -(Q * U1) - Aᵀ * U2 = U2 * Lam)
    (hsub : (U1ᵀ * U2).PosSemidef) :
    lqr A B Q R U1 U2 =
      Except.ok (R⁻¹ * (Bᵀ * riccatiP U1 U2), riccatiP U1 U2) ∧
    Aᵀ * riccatiP U1 U2 + riccatiP U1 U2 * A -
      riccatiP U1 U2 * B * R⁻¹ * Bᵀ * riccatiP U1 U2 + Q = 0 ∧
    (riccatiP U1 U2)ᵀ = riccatiP U1 U2 ∧
    (riccatiP U1 U2).PosSemidef ∧
    R⁻¹ * (Bᵀ * riccatiP U1 U2) = R⁻¹ * Bᵀ * riccatiP U1 U2 := by
  have hT : IsUnit (U1ᵀ).det := by rwa [Matrix.det_transpose]
  have hh : U2ᵀ * U1 = U1ᵀ * U2 := by
    have hherm := hsub.isHermitian
    rw [Matrix.IsHermitian, Matrix.conjTranspose_eq_transpose_of_trivial,
      Matrix.transpose_mul, Matrix.transpose_transpose] at hherm
    exact hherm
  have hPX : riccatiP U1 U2 = U2 * U1⁻¹ := riccatiP_eq_of_lagrangian hU hh
  set P := riccatiP U1 U2 with hPdef
  have hPU : P * U1 = U2 := by
    rw [hPX, Matrix.mul_assoc, Matrix.nonsing_inv_mul _ hU, Matrix.mul_one]
  have hXsym : Pᵀ = P := by
    rw [hPdef, riccatiP, Matrix.transpose_smul, Matrix.transpose_add,
      Matrix.transpose_transpose, add_comm]
  have hcare : Aᵀ * P + P * A - P * B * R⁻¹ * Bᵀ * P + Q = 0 := by
    have key : ∀ M : Matrix (Fin n) (Fin n) ℝ, M * U1 = 0 → M = 0 := by
      intro M hM
      calc M = M * (U1 * U1⁻¹) := by
            rw [Matrix.mul_nonsing_inv _ hU, Matrix.mul_one]
        _ = M * U1 * U1⁻¹ := by rw [Matrix.mul_assoc]
        _ = 0 := by rw [hM, Matrix.zero_mul]
    apply key
    have e1 : (Aᵀ * P + P * A - P * B * R⁻¹ * Bᵀ * P + Q) * U1 =
        Aᵀ * (P * U1) + P * (A * U1) -
          P * (B * (R⁻¹ * (Bᵀ * (P * U1)))) + Q * U1 := by
      simp only [Matrix.add_mul, Matrix.sub_mul, Matrix.mul_assoc]
    rw [e1, hPU]
    have e2 : P * (A * U1) - P * (B * (R⁻¹ * (Bᵀ * U2))) = P * (U1 * Lam) := by
      rw [← Matrix.mul_sub]
      congr 1
      calc A * U1 - B * (R⁻¹ * (Bᵀ * U2))
          = A * U1 - B * R⁻¹ * Bᵀ * U2 := by rw [Matrix.mul_assoc, Matrix.mul_assoc]
        _ = U1 * Lam := h1
    have e3 : P * (U1 * Lam) = U2 * Lam := by
      rw [← Matrix.mul_assoc, hPU]
    calc Aᵀ * U2 + P * (A * U1) - P * (B * (R⁻¹ * (Bᵀ * U2))) + Q * U1
        = Aᵀ * U2 + (P * (A * U1) - P * (B * (R⁻¹ * (Bᵀ * U2)))) + Q * U1 := by
          abel
      _ = Aᵀ * U2 + U2 * Lam + Q * U1 := by rw [e2, e3]
      _ = Aᵀ * U2 + (-(Q * U1) - Aᵀ * U2) + Q * U1 := by rw [← h2]
      _ = 0 := by abel
  have hpsd : P.PosSemidef := by
    have hcongr := hsub.conjTranspose_mul_mul_same U1⁻¹
    have : U1⁻¹ᴴ * (U1ᵀ * U2) * U1⁻¹ = P := by
      rw [Matrix.conjTranspose_eq_transpose_of_trivial,
        Matrix.transpose_nonsing_inv, hPX]
      calc U1ᵀ⁻¹ * (U1ᵀ * U2) * U1⁻¹
          = U1ᵀ⁻¹ * U1ᵀ * U2 * U1⁻¹ := by
            rw [← Matrix.mul_assoc U1ᵀ⁻¹ U1ᵀ U2]
        _ = U2 * U1⁻¹ := by
            rw [Matrix.nonsing_inv_mul _ hT, Matrix.one_mul]
    rwa [this] at hcongr
  refine ⟨?_, hcare, hXsym, hpsd, by rw [Matrix.mul_assoc]⟩
  rw [lqr, if_pos hR]

/-- C7: modelled from the spec, a singular input-cost matrix R makes the LQR
Synthesizer fail with ConfigurationError. -/
theorem lqr_singular_R {n m : ℕ} (A : Matrix (Fin n) (Fin n) ℝ)
    (B : Matrix (Fin n) (Fin m) ℝ) (Q : Matrix (Fin n) (Fin n) ℝ)
    (R : Matrix (Fin m) (Fin m) ℝ) (U1 U2 : Matrix (Fin n) (Fin n) ℝ)
    (hR : ¬ IsUnit R.det) :
    lqr A B Q R U1 U2 = Except.error SLError.configurationError := by
  rw [lqr, if_neg hR]

theorem lqr_correct_witness :
    IsUnit (1 : Matrix (Fin 1) (Fin 1) ℝ).det ∧
    IsUnit (1 : Matrix (Fin 1) (Fin 1) ℝ).det ∧
    ((0 : Matrix (Fin 1) (Fin 1) ℝ) * 1 -
      (1 : Matrix (Fin 1) (Fin 1) ℝ) * (1 : Matrix (Fin 1) (Fin 1) ℝ)⁻¹ *
        (1 : Matrix (Fin 1) (Fin 1) ℝ)ᵀ * 1 = 1 * (-1)) ∧
    (-((1 : Matrix (Fin 1) (Fin 1) ℝ) * 1) -
      (0 : Matrix (Fin 1) (Fin 1) ℝ)ᵀ * 1 = 1 * (-1)) ∧
    ((1 : Matrix (Fin 1) (Fin 1) ℝ)ᵀ * 1).PosSemidef ∧
    (lqr (0 : Matrix (Fin 1) (Fin 1) ℝ) 1 1 1 1 1 =
        Except.ok ((1 : Matrix (Fin 1) (Fin 1) ℝ)⁻¹ *
          ((1 : Matrix (Fin 1) (Fin 1) ℝ)ᵀ * riccatiP 1 1), riccatiP 1 1) ∧
      (0 : Matrix (Fin 1) (Fin 1) ℝ)ᵀ * riccatiP 1 1 + riccatiP 1 1 * 0 -
        riccatiP 1 1 * 1 * (1 : Matrix (Fin 1) (Fin 1) ℝ)⁻¹ *
          (1 : Matrix (Fin 1) (Fin 1) ℝ)ᵀ * riccatiP 1 1 + 1 = 0 ∧
      (riccatiP (1 : Matrix (Fin 1) (Fin 1) ℝ) 1)ᵀ = riccatiP 1 1 ∧
      (riccatiP (1 : Matrix (Fin 1) (Fin 1) ℝ) 1).PosSemidef ∧
      (1 : Matrix (Fin 1) (Fin 1) ℝ)⁻¹ *
          ((1 : Matrix (Fin 1) (Fin 1) ℝ)ᵀ * riccatiP 1 1) =
        (1 : Matrix (Fin 1) (Fin 1) ℝ)⁻¹ * (1 : Matrix (Fin 1) (Fin 1) ℝ)ᵀ *
          riccatiP 1 1) := by
  have hR : IsUnit (1 : Matrix (Fin 1) (Fin 1) ℝ).det := by simp
  have h1 : (0 : Matrix (Fin 1) (Fin 1) ℝ) * 1 -
      (1 : Matrix (Fin 1) (Fin 1) ℝ) * (1 : Matrix (Fin 1) (Fin 1) ℝ)⁻¹ *
        (1 : Matrix (Fin 1) (Fin 1) ℝ)ᵀ * 1 = 1 * (-1) := by
    simp
  have h2 : -((1 : Matrix (Fin 1) (Fin 1) ℝ) * 1) -
      (0 : Matrix (Fin 1) (Fin 1) ℝ)ᵀ * 1 = 1 * (-1) := by
    simp
  have hsub : ((1 : Matrix (Fin 1) (Fin 1) ℝ)ᵀ * 1).PosSemidef := by
    rw [Matrix.transpose_one, Matrix.one_mul]
    exact Matrix.PosSemidef.one
  exact ⟨hR, hR, h1, h2, hsub,
    lqr_correct 0 1 1 1 1 1 (-1) hR hR h1 h2 hsub⟩

theorem lqr_singular_R_witness :
    ¬ IsUnit (0 : Matrix (Fin 1) (Fin 1) ℝ).det ∧
    lqr (0 : Matrix (Fin 1) (Fin 1) ℝ) (0 : Matrix (Fin 1) (Fin 1) ℝ) 0 0 0 0 =
      Except.error SLError.configurationError := by
  have h0 : ¬ IsUnit (0 : Matrix (Fin 1) (Fin 1) ℝ).det := by
    simp
  exact ⟨h0, lqr_singular_R 0 (0 : Matrix (Fin 1) (Fin 1) ℝ) 0 0 0 0 h0⟩

/-! ### The Ellipse Boundary Extractor -/

/-- The output of np.linalg.eig for a 2x2 matrix: the eigenvalue vector and
the matrix whose column j is the (unit) eigenvector of eigenvalue j.
np.linalg.eig is an external LAPACK routine; the theorems below take its
defining properties (eigen equations, orthonormal columns for a symmetric
input) as hypotheses on this data. -/
structure EigResult where
  lam : Fin 2 → ℝ
  v : Matrix (Fin 2) (Fin 2) ℝ

/-- Embedding of the scaling step eigvec *= np.sqrt(level / eigval) of
ellipse_bounds: broadcasting multiplies column j by sqrt(level / lam j).
Faithful to the IEEE computation on the domain lam j > 0 (the NaN-propagating
variant below covers a negative eigenvalue). -/
noncomputable def scaledVec (e : EigResult) (level : ℝ) :
    Matrix (Fin 2) (Fin 2) ℝ :=
  fun i j => e.v i j * Real.sqrt (level / e.lam j)

/-- Embedding of np.arctan(b / a) under IEEE semantics: for a = 0 the
division gives ±infinity, whose arctangent is ±π/2.  The case b = 0 = a
(0/0 = NaN), excluded by linear independence of the eigenvectors, is mapped
to 0. -/
noncomputable def npArctanDiv (b a : ℝ) : ℝ :=
  if a = 0 then
    (if 0 < b then Real.pi / 2 else if b < 0 then -(Real.pi / 2) else 0)
  else Real.arctan (b / a)

/-- The even sample count: the source rounds n up with n += n % 2. -/
def evenCount (n : ℕ) : ℕ := n + n % 2

/-- The angular offset of ellipse_bounds:
np.arctan(eigvec[0, 1] / eigvec[0, 0]), computed after the scaling step. -/
noncomputable def theta0 (e : EigResult) (level : ℝ) : ℝ :=
  npArctanDiv (scaledVec e level 0 1) (scaledVec e level 0 0)

/-- The shifted angle samples of ellipse_bounds:
angle = np.linspace(0, 2*np.pi, n); angle += arctan offset. -/
noncomputable def ellipseAngles (e : EigResult) (level : ℝ) (n : ℕ) :
    List ℝ :=
  (npLinspace 0 (2 * Real.pi) (evenCount n)).map fun t => t + theta0 e level

/-- One boundary position of ellipse_bounds:
pos = np.cos(angle) * eigvec[:, 0] + np.sin(angle) * eigvec[:, 1] (scaled). -/
noncomputable def posPoint (e : EigResult) (level : ℝ) (phi : ℝ) :
    Fin 2 → ℝ :=
  fun i =>
    Real.cos phi * scaledVec e level i 0 + Real.sin phi * scaledVec e level i 1

noncomputable def posList (e : EigResult) (level : ℝ) (n : ℕ) :
    List (Fin 2 → ℝ) :=
  (ellipseAngles e level n).map (posPoint e level)

/-- Embedding of ellipse_bounds(P, level, n): with n2 = (n + n % 2) / 2,
returns (pos[:n2, 0], pos[:n2, 1], pos[:n2-1:-1, 1]); the third slice walks
the position array backwards from its end down to index n2. -/
noncomputable def ellipse_bounds (e : EigResult) (level : ℝ) (n : ℕ) :
    List ℝ × List ℝ × List ℝ :=
  ((((posList e level n).take (evenCount n / 2)).map fun q => q 0),
   (((posList e level n).take (evenCount n / 2)).map fun q => q 1),
   (((posList e level n).drop (evenCount n / 2)).reverse.map fun q => q 1))

/-- The unshifted sample angle k of the linspace over [0, 2π]. -/
noncomputable def baseAngle (N k : ℕ) : ℝ :=
  (k : ℝ) * (2 * Real.pi / ((N - 1 : ℕ) : ℝ))

theorem evenCount_even (n : ℕ) : evenCount n % 2 = 0 := by
  rw [evenCount]; omega

theorem ellipseAngles_length (e : EigResult) (level : ℝ) (n : ℕ) :
    (ellipseAngles e level n).length = evenCount n := by
  rw [ellipseAngles, List.length_map, npLinspace_length]

theorem posList_length (e : EigResult) (level : ℝ) (n : ℕ) :
    (posList e level n).length = evenCount n := by
  rw [posList, List.length_map, ellipseAngles_length]

theorem ellipseAngles_getElem (e : EigResult) (level : ℝ) (n : ℕ) {k : ℕ}
    (hk : k < evenCount n) :
    (ellipseAngles e level n)[k]? =
      some (baseAngle (evenCount n) k + theta0 e level) := by
  rw [ellipseAngles, List.getElem?_map, npLinspace_getElem 0 (2 * Real.pi) hk,
    Option.map_some']
  congr 1
  rw [baseAngle]
  ring

theorem posList_getElem (e : EigResult) (level : ℝ) (n : ℕ) {k : ℕ}
    (hk : k < evenCount n) :
    (posList e level n)[k]? =
      some (posPoint e level (baseAngle (evenCount n) k + theta0 e level)) := by
  rw [posList, List.getElem?_map, ellipseAngles_getElem e level n hk]
  rfl

theorem ellipse_bounds_x_getElem (e : EigResult) (level : ℝ) (n : ℕ) {k : ℕ}
    (hk : k < evenCount n / 2) :
    (ellipse_bounds e level n).1[k]? =
      some (posPoint e level
        (baseAngle (evenCount n) k + theta0 e level) 0) := by
  have hk2 : k < evenCount n := lt_of_lt_of_le hk (Nat.div_le_self _ _)
  rw [ellipse_bounds, List.getElem?_map, List.getElem?_take_of_lt hk,
    posList_getElem e level n hk2]
  rfl

theorem ellipse_bounds_yu_getElem (e : EigResult) (level : ℝ) (n : ℕ) {k : ℕ}
    (hk : k < evenCount n / 2) :
    (ellipse_bounds e level n).2.1[k]? =
      some (posPoint e level
        (baseAngle (evenCount n) k + theta0 e level) 1) := by
  have hk2 : k < evenCount n := lt_of_lt_of_le hk (Nat.div_le_self _ _)
  rw [ellipse_bounds, List.getElem?_map, List.getElem?_take_of_lt hk,
    posList_getElem e level n hk2]
  rfl

theorem ellipse_bounds_yl_getElem (e : EigResult) (level : ℝ) (n : ℕ) {k : ℕ}
    (hk : k < evenCount n / 2) :
    (ellipse_bounds e level n).2.2[k]? =
      some (posPoint e level
        (baseAngle (evenCount n) (evenCount n - 1 - k) + theta0 e level) 1) := by
  have heven := evenCount_even n
  have hlen : ((posList e level n).drop (evenCount n / 2)).length =
      evenCount n / 2 := by
    rw [List.length_drop, posList_length]
    omega
  have hkrev : k < ((posList e level n).drop (evenCount n / 2)).length := by
    rw [hlen]; exact hk
  rw [ellipse_bounds, List.getElem?_map, List.getElem?_reverse hkrev,
    hlen, List.getElem?_drop]
  have harith : evenCount n / 2 + (evenCount n / 2 - 1 - k) =
      evenCount n - 1 - k := by omega
  rw [harith, posList_getElem e level n (by omega)]
  rfl

theorem sin_coeff_npArctanDiv (b a : ℝ) :
    b * Real.cos (npArctanDiv b a) - a * Real.sin (npArctanDiv b a) = 0 := by
  rw [npArctanDiv]
  split_ifs with h0 h1 h2
  · subst h0
    rw [Real.cos_pi_div_two]
    ring
  · subst h0
    rw [Real.cos_neg, Real.cos_pi_div_two]
    ring
  · have hb : b = 0 := le_antisymm (not_lt.mp h1) (not_lt.mp h2)
    subst h0; subst hb
    ring
  · rw [Real.cos_arctan, Real.sin_arctan]
    have hs : Real.sqrt (1 + (b / a) ^ 2) ≠ 0 := by positivity
    field_simp
    ring

theorem posPoint_x_eq (e : EigResult) (level : ℝ) (t : ℝ) :
    posPoint e level (t + theta0 e level) 0 =
      (scaledVec e level 0 0 * Real.cos (theta0 e level) +
        scaledVec e level 0 1 * Real.sin (theta0 e level)) * Real.cos t := by
  have h := sin_coeff_npArctanDiv (scaledVec e level 0 1)
    (scaledVec e level 0 0)
  rw [show npArctanDiv (scaledVec e level 0 1) (scaledVec e level 0 0) =
    theta0 e level from rfl] at h
  simp only [posPoint]
  rw [Real.cos_add, Real.sin_add]
  linear_combination (Real.sin t) * h

theorem posPoint_y_eq (e : EigResult) (level : ℝ) (t : ℝ) :
    posPoint e level (t + theta0 e level) 1 =
      (scaledVec e level 1 0 * Real.cos (theta0 e level) +
        scaledVec e level 1 1 * Real.sin (theta0 e level)) * Real.cos t +
      (scaledVec e level 1 1 * Real.cos (theta0 e level) -
        scaledVec e level 1 0 * Real.sin (theta0 e level)) * Real.sin t := by
  simp only [posPoint]
  rw [Real.cos_add, Real.sin_add]
  ring

theorem baseAngle_rev (N k : ℕ) (h2 : 2 ≤ N) (hk : k ≤ N - 1) :
    baseAngle N (N - 1 - k) = 2 * Real.pi - baseAngle N k := by
  rw [baseAngle, baseAngle]
  have hk2 : k ≤ N - 1 := hk
  rw [Nat.cast_sub hk2, Nat.cast_sub (by omega : 1 ≤ N)]
  have hne : ((N : ℝ) - 1) ≠ 0 := by
    have : (2 : ℝ) ≤ (N : ℝ) := by exact_mod_cast h2
    linarith
  push_cast
  field_simp
  ring

/-- The quadratic form x' P x of a 2x2 matrix at the point (x, y). -/
def quadForm (P : Matrix (Fin 2) (Fin 2) ℝ) (x y : ℝ) : ℝ :=
  x * (P 0 0 * x + P 0 1 * y) + y * (P 1 0 * x + P 1 1 * y)

theorem quadForm_posPoint (P : Matrix (Fin 2) (Fin 2) ℝ) (e : EigResult)
    (level : ℝ) (hlevel : 0 < level) (hlam : ∀ j, 0 < e.lam j)
    (hEig : ∀ i j, (P * e.v) i j = e.lam j * e.v i j)
    (hOrth : e.vᵀ * e.v = 1) (phi : ℝ) :
    quadForm P (posPoint e level phi 0) (posPoint e level phi 1) = level := by
  have hs0 : Real.sqrt (level / e.lam 0) ^ 2 * e.lam 0 = level := by
    rw [Real.sq_sqrt (div_nonneg hlevel.le (hlam 0).le)]
    exact div_mul_cancel₀ level (hlam 0).ne'
  have hs1 : Real.sqrt (level / e.lam 1) ^ 2 * e.lam 1 = level := by
    rw [Real.sq_sqrt (div_nonneg hlevel.le (hlam 1).le)]
    exact div_mul_cancel₀ level (hlam 1).ne'
  have hE : ∀ i j, P i 0 * e.v 0 j + P i 1 * e.v 1 j = e.lam j * e.v i j := by
    intro i j
    have h := hEig i j
    rwa [Matrix.mul_apply, Fin.sum_univ_two] at h
  have hO : ∀ j k, e.v 0 j * e.v 0 k + e.v 1 j * e.v 1 k =
      (1 : Matrix (Fin 2) (Fin 2) ℝ) j k := by
    intro j k
    have h := congrFun (congrFun hOrth j) k
    rwa [Matrix.mul_apply, Fin.sum_univ_two, Matrix.transpose_apply,
      Matrix.transpose_apply] at h
  have hN0 : e.v 0 0 * e.v 0 0 + e.v 1 0 * e.v 1 0 = 1 := by
    have h := hO 0 0
    rwa [Matrix.one_apply_eq] at h
  have hN1 : e.v 0 1 * e.v 0 1 + e.v 1 1 * e.v 1 1 = 1 := by
    have h := hO 1 1
    rwa [Matrix.one_apply_eq] at h
  have hO01 : e.v 0 0 * e.v 0 1 + e.v 1 0 * e.v 1 1 = 0 := by
    have h := hO 0 1
    rwa [Matrix.one_apply_ne (by decide)] at h
  have hcs : Real.sin phi ^ 2 + Real.cos phi ^ 2 = 1 :=
    Real.sin_sq_add_cos_sq phi
  simp only [quadForm, posPoint, scaledVec]
  linear_combination
    (Real.cos phi * (e.v 0 0 * Real.sqrt (level / e.lam 0)) +
      Real.sin phi * (e.v 0 1 * Real.sqrt (level / e.lam 1))) *
        (Real.cos phi * Real.sqrt (level / e.lam 0) * hE 0 0 +
          Real.sin phi * Real.sqrt (level / e.lam 1) * hE 0 1) +
    (Real.cos phi * (e.v 1 0 * Real.sqrt (level / e.lam 0)) +
      Real.sin phi * (e.v 1 1 * Real.sqrt (level / e.lam 1))) *
        (Real.cos phi * Real.sqrt (level / e.lam 0) * hE 1 0 +
          Real.sin phi * Real.sqrt (level / e.lam 1) * hE 1 1) +
    Real.cos phi * Real.sqrt (level / e.lam 0) * e.lam 0 *
      (Real.cos phi * Real.sqrt (level / e.lam 0) * hN0 +
        Real.sin phi * Real.sqrt (level / e.lam 1) * hO01) +
    Real.sin phi * Real.sqrt (level / e.lam 1) * e.lam 1 *
      (Real.cos phi * Real.sqrt (level / e.lam 0) * hO01 +
        Real.sin phi * Real.sqrt (level / e.lam 1) * hN1) +
    Real.cos phi ^ 2 * hs0 + Real.sin phi ^ 2 * hs1 + level * hcs

/-- C5: every point returned by ellipse_bounds lies on the ellipse: for a
valid eigendecomposition (eigen equations, orthonormal eigenvector columns)
of P with positive eigenvalues and a positive level, both (x[k], upper_y[k])
and (x[k], lower_y[k]) satisfy x' P x = level. -/
theorem ellipse_bounds_points_on_ellipse (P : Matrix (Fin 2) (Fin 2) ℝ)
    (e : EigResult) (level : ℝ) (n : ℕ)
    (hlevel : 0 < level) (hlam : ∀ j, 0 < e.lam j)
    (hEig : ∀ i j, (P * e.v) i j = e.lam j * e.v i j)
    (hOrth : e.vᵀ * e.v = 1)
    (k : ℕ) (hk : k < evenCount n / 2) :
    quadForm P ((ellipse_bounds e level n).1.getD k 0)
        ((ellipse_bounds e level n).2.1.getD k 0) = level ∧
    quadForm P ((ellipse_bounds e level n).1.getD k 0)
        ((ellipse_bounds e level n).2.2.getD k 0) = level := by
  have heven := evenCount_even n
  have hN2 : 2 ≤ evenCount n := by omega
  have hxval : (ellipse_bounds e level n).1.getD k 0 =
      posPoint e level (baseAngle (evenCount n) k + theta0 e level) 0 := by
    rw [List.getD_eq_getElem?_getD, ellipse_bounds_x_getElem e level n hk]
    rfl
  have hyuval : (ellipse_bounds e level n).2.1.getD k 0 =
      posPoint e level (baseAngle (evenCount n) k + theta0 e level) 1 := by
    rw [List.getD_eq_getElem?_getD, ellipse_bounds_yu_getElem e level n hk]
    rfl
  have hylval : (ellipse_bounds e level n).2.2.getD k 0 =
      posPoint e level
        (baseAngle (evenCount n) (evenCount n - 1 - k) + theta0 e level) 1 := by
    rw [List.getD_eq_getElem?_getD, ellipse_bounds_yl_getElem e level n hk]
    rfl
  have hxmatch : posPoint e level
      (baseAngle (evenCount n) k + theta0 e level) 0 =
      posPoint e level
        (baseAngle (evenCount n) (evenCount n - 1 - k) + theta0 e level) 0 := by
    rw [posPoint_x_eq, posPoint_x_eq,
      baseAngle_rev (evenCount n) k hN2 (by omega),
      Real.cos_sub, Real.cos_two_pi, Real.sin_two_pi]
    ring
  constructor
  · rw [hxval, hyuval]
    exact quadForm_posPoint P e level hlevel hlam hEig hOrth _
  · rw [hxval, hylval, hxmatch]
    exact quadForm_posPoint P e level hlevel hlam hEig hOrth _

theorem ellipse_bounds_points_on_ellipse_witness :
    (0 : ℝ) < 1 ∧ (∀ j : Fin 2, (0 : ℝ) < (![1, 1] : Fin 2 → ℝ) j) ∧
    (∀ i j, ((1 : Matrix (Fin 2) (Fin 2) ℝ) *
        (1 : Matrix (Fin 2) (Fin 2) ℝ)) i j =
      (![1, 1] : Fin 2 → ℝ) j * (1 : Matrix (Fin 2) (Fin 2) ℝ) i j) ∧
    ((1 : Matrix (Fin 2) (Fin 2) ℝ)ᵀ * 1 = 1) ∧ 0 < evenCount 4 / 2 ∧
    (quadForm 1 ((ellipse_bounds ⟨![1, 1], 1⟩ 1 4).1.getD 0 0)
        ((ellipse_bounds ⟨![1, 1], 1⟩ 1 4).2.1.getD 0 0) = 1 ∧
      quadForm 1 ((ellipse_bounds ⟨![1, 1], 1⟩ 1 4).1.getD 0 0)
        ((ellipse_bounds ⟨![1, 1], 1⟩ 1 4).2.2.getD 0 0) = 1) := by
  have hlam : ∀ j : Fin 2, (0 : ℝ) < (![1, 1] : Fin 2 → ℝ) j := by
    intro j
    fin_cases j <;> norm_num
  have hEig : ∀ i j, ((1 : Matrix (Fin 2) (Fin 2) ℝ) *
      (1 : Matrix (Fin 2) (Fin 2) ℝ)) i j =
      (![1, 1] : Fin 2 → ℝ) j * (1 : Matrix (Fin 2) (Fin 2) ℝ) i j := by
    intro i j
    fin_cases i <;> fin_cases j <;>
      simp [Matrix.one_apply]
  have hOrth : (1 : Matrix (Fin 2) (Fin 2) ℝ)ᵀ * 1 = 1 := by
    rw [Matrix.transpose_one, Matrix.one_mul]
  exact ⟨one_pos, hlam, hEig, hOrth, by norm_num [evenCount],
    ellipse_bounds_points_on_ellipse 1 ⟨![1, 1], 1⟩ 1 4 one_pos hlam hEig hOrth
      0 (by norm_num [evenCount])⟩

/-! ### C8: the sampling scheme of ellipse_bounds -/

/-- C8 (amended): ellipse_bounds rounds n up to the nearest even N = n + n%2,
samples N angles at equal spacing 2π/(N−1) covering the closed interval
[0, 2π] inclusive — both endpoints are sampled, not the half-open [0, 2π) —
each shifted by the offset θ0 obtained by single-argument arctan of the ratio
of the scaled eigenvector x-components (not atan2), and returns three
sequences each of length N/2. -/
theorem ellipse_bounds_sampling (e : EigResult) (level : ℝ) (n : ℕ) :
    (ellipse_bounds e level n).1.length = evenCount n / 2 ∧
    (ellipse_bounds e level n).2.1.length = evenCount n / 2 ∧
    (ellipse_bounds e level n).2.2.length = evenCount n / 2 ∧
    evenCount n % 2 = 0 ∧ n ≤ evenCount n ∧ evenCount n ≤ n + 1 ∧
    (∀ k, k < evenCount n → (ellipseAngles e level n)[k]? =
      some ((k : ℝ) * (2 * Real.pi / ((evenCount n - 1 : ℕ) : ℝ)) +
        theta0 e level)) ∧
    (2 ≤ evenCount n → (ellipseAngles e level n)[evenCount n - 1]? =
      some (2 * Real.pi + theta0 e level)) := by
  have heven := evenCount_even n
  have hlen1 : ((posList e level n).take (evenCount n / 2)).length =
      evenCount n / 2 := by
    rw [List.length_take, posList_length]
    omega
  refine ⟨?_, ?_, ?_, heven, by rw [evenCount]; omega, by rw [evenCount]; omega,
    ?_, ?_⟩
  · rw [ellipse_bounds, List.length_map, hlen1]
  · rw [ellipse_bounds, List.length_map, hlen1]
  · rw [ellipse_bounds, List.length_map, List.length_reverse,
      List.length_drop, posList_length]
    omega
  · intro k hk
    exact ellipseAngles_getElem e level n hk
  · intro h2
    rw [ellipseAngles_getElem e level n (by omega)]
    congr 2
    rw [baseAngle]
    have hne : ((evenCount n - 1 : ℕ) : ℝ) ≠ 0 := by
      have h1 : 0 < evenCount n - 1 := by omega
      exact_mod_cast Nat.pos_iff_ne_zero.mp h1
    have hne2 : ((evenCount n : ℕ) : ℝ) - 1 ≠ 0 := by
      have h1 : (2 : ℝ) ≤ ((evenCount n : ℕ) : ℝ) := by exact_mod_cast h2
      intro hcon
      linarith
    field_simp

/-- C8 counterexample: for the eigendecomposition (λ = (1,1), V = identity)
of P = identity with level 1 and n = 4, the last sampled unshifted angle is
2π itself — the linspace covers [0, 2π] inclusive, refuting uniform sampling
of the half-open interval [0, 2π) (whose four samples would be
0, π/2, π, 3π/2); and for the equally valid eigendecomposition with first
eigenvector (−1, 0), the sample at angle 0 has the minimum x-coordinate −1,
not the maximum (arctan, unlike atan2, ignores the sign of eigvec00). -/
theorem ellipse_bounds_sampling_counterexample :
    (ellipseAngles ⟨![1, 1], 1⟩ 1 4)[3]? = some (2 * Real.pi) ∧
    ¬ (2 * Real.pi < 2 * Real.pi) ∧
    (!![(-1 : ℝ), 0; 0, 1]ᵀ * !![(-1 : ℝ), 0; 0, 1] = 1) ∧
    (ellipse_bounds ⟨![1, 1], !![(-1 : ℝ), 0; 0, 1]⟩ 1 4).1.getD 0 0 = -1 ∧
    (ellipse_bounds ⟨![1, 1], !![(-1 : ℝ), 0; 0, 1]⟩ 1 4).1.getD 1 0 =
      1 / 2 ∧
    (-1 : ℝ) < 1 / 2 := by
  have hec : evenCount 4 = 4 := by rw [evenCount]
  have hsv1 : ∀ i j, scaledVec ⟨![1, 1], 1⟩ 1 i j =
      (1 : Matrix (Fin 2) (Fin 2) ℝ) i j := by
    intro i j
    rw [scaledVec]
    show (1 : Matrix (Fin 2) (Fin 2) ℝ) i j *
      Real.sqrt (1 / (![1, 1] : Fin 2 → ℝ) j) = _
    fin_cases j <;> norm_num [Real.sqrt_one]
  have hth1 : theta0 ⟨![1, 1], 1⟩ 1 = 0 := by
    rw [theta0, hsv1, hsv1, npArctanDiv]
    rw [if_neg (by norm_num [Matrix.one_apply] :
      ¬ (1 : Matrix (Fin 2) (Fin 2) ℝ) 0 0 = 0)]
    norm_num [Matrix.one_apply, Real.arctan_zero]
  have hsv2 : ∀ i j, scaledVec ⟨![1, 1], !![(-1 : ℝ), 0; 0, 1]⟩ 1 i j =
      !![(-1 : ℝ), 0; 0, 1] i j := by
    intro i j
    rw [scaledVec]
    show !![(-1 : ℝ), 0; 0, 1] i j *
      Real.sqrt (1 / (![1, 1] : Fin 2 → ℝ) j) = _
    fin_cases j <;> norm_num [Real.sqrt_one]
  have hth2 : theta0 ⟨![1, 1], !![(-1 : ℝ), 0; 0, 1]⟩ 1 = 0 := by
    rw [theta0, hsv2, hsv2, npArctanDiv]
    rw [if_neg (by norm_num : ¬ !![(-1 : ℝ), 0; 0, 1] 0 0 = 0)]
    norm_num [Real.arctan_zero]
  refine ⟨?_, lt_irrefl _, ?_, ?_, ?_, by norm_num⟩
  · rw [ellipseAngles_getElem ⟨![1, 1], 1⟩ 1 4 (by rw [hec]; omega), hth1]
    congr 1
    rw [baseAngle, hec]
    norm_num
    ring
  · have ht : !![(-1 : ℝ), 0; 0, 1]ᵀ = !![(-1 : ℝ), 0; 0, 1] := by
      ext i j
      fin_cases i <;> fin_cases j <;> rfl
    rw [ht]
    ext i j
    fin_cases i <;> fin_cases j <;>
      simp [Matrix.mul_apply, Fin.sum_univ_two, Matrix.one_apply]
  · rw [List.getD_eq_getElem?_getD,
      ellipse_bounds_x_getElem _ 1 4 (by rw [hec]; omega), Option.getD_some,
      hth2, posPoint]
    have hb0 : baseAngle (evenCount 4) 0 = 0 := by
      rw [baseAngle]
      norm_num
    rw [hb0, hsv2, hsv2]
    norm_num
  · rw [List.getD_eq_getElem?_getD,
      ellipse_bounds_x_getElem _ 1 4 (by rw [hec]; omega), Option.getD_some,
      hth2, posPoint]
    have hb1 : baseAngle (evenCount 4) 1 = 2 * Real.pi / 3 := by
      rw [baseAngle, hec]
      norm_num
    rw [hb1, hsv2, hsv2]
    have hcos : Real.cos (2 * Real.pi / 3) = -(1 / 2) := by
      rw [show (2 * Real.pi / 3 : ℝ) = Real.pi - Real.pi / 3 by ring,
        Real.cos_pi_sub, Real.cos_pi_div_three]
    rw [add_zero, hcos]
    norm_num

theorem ellipse_bounds_sampling_witness :
    0 < evenCount 4 ∧ 2 ≤ evenCount 4 ∧
    ((ellipse_bounds ⟨![1, 1], 1⟩ 1 4).1.length = evenCount 4 / 2 ∧
      (ellipse_bounds ⟨![1, 1], 1⟩ 1 4).2.1.length = evenCount 4 / 2 ∧
      (ellipse_bounds ⟨![1, 1], 1⟩ 1 4).2.2.length = evenCount 4 / 2 ∧
      evenCount 4 % 2 = 0 ∧ 4 ≤ evenCount 4 ∧ evenCount 4 ≤ 4 + 1 ∧
      (∀ k, k < evenCount 4 → (ellipseAngles ⟨![1, 1], 1⟩ 1 4)[k]? =
        some ((k : ℝ) * (2 * Real.pi / ((evenCount 4 - 1 : ℕ) : ℝ)) +
          theta0 ⟨![1, 1], 1⟩ 1)) ∧
      (2 ≤ evenCount 4 → (ellipseAngles ⟨![1, 1], 1⟩ 1 4)[evenCount 4 - 1]? =
        some (2 * Real.pi + theta0 ⟨![1, 1], 1⟩ 1))) :=
  ⟨by norm_num [evenCount], by norm_num [evenCount],
    ellipse_bounds_sampling ⟨![1, 1], 1⟩ 1 4⟩

/-! ### C9: upper and lower branches of ellipse_bounds -/

theorem baseAngle_pos_lt_pi {N k : ℕ} (heven : N % 2 = 0) (hk : k < N / 2)
    (hk1 : 1 ≤ k) : 0 < baseAngle N k ∧ baseAngle N k < Real.pi := by
  have hN2 : 2 ≤ N := by omega
  have h2k : 2 * k < N - 1 := by omega
  have hden : (0 : ℝ) < ((N - 1 : ℕ) : ℝ) := by
    exact_mod_cast (by omega : 0 < N - 1)
  constructor
  · rw [baseAngle]
    have hkpos : (0 : ℝ) < (k : ℝ) := by exact_mod_cast hk1
    have := Real.pi_pos
    positivity
  · rw [baseAngle]
    rw [div_eq_mul_inv, ← mul_assoc]
    rw [show (k : ℝ) * (2 * Real.pi) = (2 * k : ℝ) * Real.pi by ring]
    have hlt : ((2 * k : ℕ) : ℝ) < ((N - 1 : ℕ) : ℝ) := by exact_mod_cast h2k
    calc (2 * (k : ℝ)) * Real.pi * (((N - 1 : ℕ) : ℝ))⁻¹
        < ((N - 1 : ℕ) : ℝ) * Real.pi * (((N - 1 : ℕ) : ℝ))⁻¹ := by
          have hpi := Real.pi_pos
          have hinv : (0 : ℝ) < (((N - 1 : ℕ) : ℝ))⁻¹ := by positivity
          apply mul_lt_mul_of_pos_right _ hinv
          apply mul_lt_mul_of_pos_right _ hpi
          push_cast at hlt ⊢
          linarith
      _ = Real.pi := by
          have hne2 : ((N : ℝ) - 1) ≠ 0 := by
            have h3 : (2 : ℝ) ≤ (N : ℝ) := by exact_mod_cast hN2
            intro hcon
            linarith
          field_simp

/-- C9 (amended): at every index k < N/2 the lower-branch value lower_y[k] is
the y-coordinate of the sample whose x-coordinate equals x[k] (the sample at
the mirrored angle 2π − t_k), and — provided the returned eigendecomposition
is oriented so that sv00·(sv00·sv11 − sv01·sv10) > 0 for the scaled
eigenvector matrix sv (as for the conventional identity-like outputs of
np.linalg.eig) — upper_y[k] ≥ lower_y[k], with equality exactly at k = 0, the
sample at the x-extreme of the parametrization.  Without the orientation
condition the two branches can be swapped (see the counterexample). -/
theorem ellipse_bounds_upper_lower (e : EigResult) (level : ℝ) (n : ℕ)
    (horient : 0 < scaledVec e level 0 0 *
      (scaledVec e level 0 0 * scaledVec e level 1 1 -
        scaledVec e level 0 1 * scaledVec e level 1 0))
    (k : ℕ) (hk : k < evenCount n / 2) :
    posPoint e level (baseAngle (evenCount n) (evenCount n - 1 - k) +
        theta0 e level) 0 = (ellipse_bounds e level n).1.getD k 0 ∧
    (ellipse_bounds e level n).2.2.getD k 0 ≤
      (ellipse_bounds e level n).2.1.getD k 0 ∧
    ((ellipse_bounds e level n).2.1.getD k 0 =
        (ellipse_bounds e level n).2.2.getD k 0 ↔ k = 0) := by
  have heven := evenCount_even n
  have hN2 : 2 ≤ evenCount n := by omega
  set N := evenCount n with hN
  set a := scaledVec e level 0 0 with hadef
  set b := scaledVec e level 0 1 with hbdef
  set c := scaledVec e level 1 0 with hcdef
  set d := scaledVec e level 1 1 with hddef
  have ha : a ≠ 0 := by
    intro h0
    rw [h0, zero_mul] at horient
    exact lt_irrefl 0 horient
  have hth : theta0 e level = Real.arctan (b / a) := by
    rw [theta0, ← hadef, ← hbdef, npArctanDiv, if_neg ha]
  have hcosθ : 0 < Real.cos (theta0 e level) := by
    rw [hth]
    exact Real.cos_arctan_pos _
  have hsinθ : Real.sin (theta0 e level) =
      b / a * Real.cos (theta0 e level) := by
    rw [hth, Real.sin_arctan, Real.cos_arctan]
    ring
  have hSy : 0 < d * Real.cos (theta0 e level) -
      c * Real.sin (theta0 e level) := by
    rw [hsinθ]
    have hfrac : 0 < (a * d - b * c) / a := by
      rcases mul_pos_iff.mp horient with ⟨ha1, hd1⟩ | ⟨ha1, hd1⟩
      · exact div_pos hd1 ha1
      · exact div_pos_of_neg_of_neg hd1 ha1
    have heq : d * Real.cos (theta0 e level) -
        c * (b / a * Real.cos (theta0 e level)) =
        ((a * d - b * c) / a) * Real.cos (theta0 e level) := by
      field_simp
      ring
    rw [heq]
    exact mul_pos hfrac hcosθ
  have hxval : (ellipse_bounds e level n).1.getD k 0 =
      posPoint e level (baseAngle N k + theta0 e level) 0 := by
    rw [List.getD_eq_getElem?_getD, ellipse_bounds_x_getElem e level n hk]
    rfl
  have hyuval : (ellipse_bounds e level n).2.1.getD k 0 =
      posPoint e level (baseAngle N k + theta0 e level) 1 := by
    rw [List.getD_eq_getElem?_getD, ellipse_bounds_yu_getElem e level n hk]
    rfl
  have hylval : (ellipse_bounds e level n).2.2.getD k 0 =
      posPoint e level (baseAngle N (N - 1 - k) + theta0 e level) 1 := by
    rw [List.getD_eq_getElem?_getD, ellipse_bounds_yl_getElem e level n hk]
    rfl
  have hrev : baseAngle N (N - 1 - k) = 2 * Real.pi - baseAngle N k :=
    baseAngle_rev N k hN2 (by omega)
  have hcosrev : Real.cos (baseAngle N (N - 1 - k)) =
      Real.cos (baseAngle N k) := by
    rw [hrev, Real.cos_sub, Real.cos_two_pi, Real.sin_two_pi]
    ring
  have hsinrev : Real.sin (baseAngle N (N - 1 - k)) =
      - Real.sin (baseAngle N k) := by
    rw [hrev, Real.sin_sub, Real.cos_two_pi, Real.sin_two_pi]
    ring
  have hdiff : posPoint e level (baseAngle N k + theta0 e level) 1 -
      posPoint e level (baseAngle N (N - 1 - k) + theta0 e level) 1 =
      2 * (d * Real.cos (theta0 e level) - c * Real.sin (theta0 e level)) *
        Real.sin (baseAngle N k) := by
    rw [posPoint_y_eq, posPoint_y_eq, hcosrev, hsinrev, ← hcdef, ← hddef]
    ring
  have hsin_nonneg : 0 ≤ Real.sin (baseAngle N k) := by
    rcases Nat.eq_zero_or_pos k with hk0 | hk1
    · subst hk0
      rw [baseAngle]
      norm_num
    · obtain ⟨h1, h2⟩ := baseAngle_pos_lt_pi heven hk hk1
      exact (Real.sin_pos_of_pos_of_lt_pi h1 h2).le
  refine ⟨?_, ?_, ?_⟩
  · rw [hxval, posPoint_x_eq, posPoint_x_eq, hcosrev]
  · rw [hyuval, hylval]
    nlinarith [mul_nonneg (le_of_lt hSy) hsin_nonneg]
  · rw [hyuval, hylval]
    constructor
    · intro heq
      by_contra hk0
      have hk1 : 1 ≤ k := by omega
      obtain ⟨h1, h2⟩ := baseAngle_pos_lt_pi heven hk hk1
      have hsinpos := Real.sin_pos_of_pos_of_lt_pi h1 h2
      have : posPoint e level (baseAngle N k + theta0 e level) 1 -
          posPoint e level (baseAngle N (N - 1 - k) + theta0 e level) 1 =
          0 := by rw [heq]; ring
      rw [hdiff] at this
      nlinarith
    · intro hk0
      subst hk0
      have hsin0 : Real.sin (baseAngle N 0) = 0 := by
        rw [baseAngle]
        norm_num
      have h0 : posPoint e level (baseAngle N 0 + theta0 e level) 1 -
          posPoint e level (baseAngle N (N - 1 - 0) + theta0 e level) 1 =
          0 := by
        rw [hdiff, hsin0]
        ring
      linarith [h0]

theorem ellipse_bounds_upper_lower_witness :
    0 < scaledVec ⟨![1, 1], 1⟩ 1 0 0 *
      (scaledVec ⟨![1, 1], 1⟩ 1 0 0 * scaledVec ⟨![1, 1], 1⟩ 1 1 1 -
        scaledVec ⟨![1, 1], 1⟩ 1 0 1 * scaledVec ⟨![1, 1], 1⟩ 1 1 0) ∧
    1 < evenCount 4 / 2 ∧
    (posPoint ⟨![1, 1], 1⟩ 1 (baseAngle (evenCount 4) (evenCount 4 - 1 - 1) +
        theta0 ⟨![1, 1], 1⟩ 1) 0 =
      (ellipse_bounds ⟨![1, 1], 1⟩ 1 4).1.getD 1 0 ∧
    (ellipse_bounds ⟨![1, 1], 1⟩ 1 4).2.2.getD 1 0 ≤
      (ellipse_bounds ⟨![1, 1], 1⟩ 1 4).2.1.getD 1 0 ∧
    ((ellipse_bounds ⟨![1, 1], 1⟩ 1 4).2.1.getD 1 0 =
        (ellipse_bounds ⟨![1, 1], 1⟩ 1 4).2.2.getD 1 0 ↔ (1 : ℕ) = 0)) := by
  have hsv1 : ∀ i j, scaledVec ⟨![1, 1], 1⟩ 1 i j =
      (1 : Matrix (Fin 2) (Fin 2) ℝ) i j := by
    intro i j
    rw [scaledVec]
    show (1 : Matrix (Fin 2) (Fin 2) ℝ) i j *
      Real.sqrt (1 / (![1, 1] : Fin 2 → ℝ) j) = _
    fin_cases j <;> norm_num [Real.sqrt_one]
  have horient : 0 < scaledVec ⟨![1, 1], 1⟩ 1 0 0 *
      (scaledVec ⟨![1, 1], 1⟩ 1 0 0 * scaledVec ⟨![1, 1], 1⟩ 1 1 1 -
        scaledVec ⟨![1, 1], 1⟩ 1 0 1 * scaledVec ⟨![1, 1], 1⟩ 1 1 0) := by
    rw [hsv1, hsv1, hsv1, hsv1]
    norm_num [Matrix.one_apply]
  exact ⟨horient, by norm_num [evenCount],
    ellipse_bounds_upper_lower ⟨![1, 1], 1⟩ 1 4 horient 1
      (by norm_num [evenCount])⟩

/-- C9 counterexample: for P = identity with level 1 and n = 4, the valid
eigendecomposition (λ = (1,1), V = [[1,0],[0,−1]]) — unit orthogonal
eigenvector columns satisfying the eigen equations — makes ellipse_bounds
return upper_y[1] < lower_y[1]: the two branches are swapped, refuting the
claim for every valid eigendecomposition output. -/
theorem ellipse_bounds_upper_lower_counterexample :
    (!![(1 : ℝ), 0; 0, -1]ᵀ * !![(1 : ℝ), 0; 0, -1] = 1) ∧
    (∀ i j, ((1 : Matrix (Fin 2) (Fin 2) ℝ) * !![(1 : ℝ), 0; 0, -1]) i j =
      (![1, 1] : Fin 2 → ℝ) j * !![(1 : ℝ), 0; 0, -1] i j) ∧
    (0 : ℝ) < 1 ∧
    (ellipse_bounds ⟨![1, 1], !![(1 : ℝ), 0; 0, -1]⟩ 1 4).2.1.getD 1 0 <
      (ellipse_bounds ⟨![1, 1], !![(1 : ℝ), 0; 0, -1]⟩ 1 4).2.2.getD 1 0 := by
  have hec : evenCount 4 = 4 := by rw [evenCount]
  have hsv : ∀ i j, scaledVec ⟨![1, 1], !![(1 : ℝ), 0; 0, -1]⟩ 1 i j =
      !![(1 : ℝ), 0; 0, -1] i j := by
    intro i j
    rw [scaledVec]
    show !![(1 : ℝ), 0; 0, -1] i j *
      Real.sqrt (1 / (![1, 1] : Fin 2 → ℝ) j) = _
    fin_cases j <;> norm_num [Real.sqrt_one]
  have hth : theta0 ⟨![1, 1], !![(1 : ℝ), 0; 0, -1]⟩ 1 = 0 := by
    rw [theta0, hsv, hsv, npArctanDiv]
    rw [if_neg (by norm_num : ¬ !![(1 : ℝ), 0; 0, -1] 0 0 = 0)]
    norm_num [Real.arctan_zero]
  refine ⟨?_, ?_, one_pos, ?_⟩
  · have ht : !![(1 : ℝ), 0; 0, -1]ᵀ = !![(1 : ℝ), 0; 0, -1] := by
      ext i j
      fin_cases i <;> fin_cases j <;> rfl
    rw [ht]
    ext i j
    fin_cases i <;> fin_cases j <;>
      simp [Matrix.mul_apply, Fin.sum_univ_two, Matrix.one_apply]
  · intro i j
    rw [Matrix.one_mul]
    fin_cases i <;> fin_cases j <;> norm_num
  · rw [List.getD_eq_getElem?_getD,
      ellipse_bounds_yu_getElem _ 1 4 (by rw [hec]; omega),
      List.getD_eq_getElem?_getD,
      ellipse_bounds_yl_getElem _ 1 4 (by rw [hec]; omega),
      Option.getD_some, Option.getD_some, hth, posPoint, posPoint]
    simp only [hsv]
    have hb1 : baseAngle (evenCount 4) 1 = 2 * Real.pi / 3 := by
      rw [baseAngle, hec]
      norm_num
    have hb2 : baseAngle (evenCount 4) (evenCount 4 - 1 - 1) =
        4 * Real.pi / 3 := by
      rw [baseAngle, hec]
      norm_num
      ring
    rw [hb1, hb2]
    have hs1 : 0 < Real.sin (2 * Real.pi / 3) := by
      rw [show (2 * Real.pi / 3 : ℝ) = Real.pi - Real.pi / 3 by ring,
        Real.sin_pi_sub]
      apply Real.sin_pos_of_pos_of_lt_pi
      · positivity
      · have := Real.pi_pos
        linarith
    have hs2 : Real.sin (4 * Real.pi / 3) < 0 := by
      rw [show (4 * Real.pi / 3 : ℝ) = Real.pi / 3 + Real.pi by ring,
        Real.sin_add_pi]
      rw [show (Real.pi / 3 : ℝ) = Real.pi - 2 * Real.pi / 3 by ring]
      rw [Real.sin_pi_sub]
      linarith
    norm_num
    linarith

/-! ### C4: ellipse_bounds on a non-positive-definite matrix

The source performs no positive-definiteness check: np.sqrt of the negative
ratio level/eigval emits a RuntimeWarning and yields NaN, which then
propagates through every arithmetic step, and the function returns normally.
The embedding below models the IEEE float values as Option ℝ with none
standing for NaN (a finite value divided by zero, which IEEE maps to
infinity rather than NaN, is also mapped to none here; that case is not
reached by any theorem below). -/

noncomputable def nadd : Option ℝ → Option ℝ → Option ℝ
  | some a, some b => some (a + b)
  | _, _ => none

noncomputable def nmul : Option ℝ → Option ℝ → Option ℝ
  | some a, some b => some (a * b)
  | _, _ => none

noncomputable def ndiv : Option ℝ → Option ℝ → Option ℝ
  | some a, some b => if b = 0 then none else some (a / b)
  | _, _ => none

noncomputable def nsqrt : Option ℝ → Option ℝ
  | some a => if 0 ≤ a then some (Real.sqrt a) else none
  | none => none

noncomputable def ncos : Option ℝ → Option ℝ := Option.map Real.cos

noncomputable def nsin : Option ℝ → Option ℝ := Option.map Real.sin

noncomputable def narctan : Option ℝ → Option ℝ := Option.map Real.arctan

/-- IEEE-valued scaling step eigvec *= np.sqrt(level / eigval). -/
noncomputable def scaledVecN (e : EigResult) (level : ℝ) (i j : Fin 2) :
    Option ℝ :=
  nmul (some (e.v i j)) (nsqrt (ndiv (some level) (some (e.lam j))))

/-- IEEE-valued offset np.arctan(eigvec[0, 1] / eigvec[0, 0]). -/
noncomputable def theta0N (e : EigResult) (level : ℝ) : Option ℝ :=
  narctan (ndiv (scaledVecN e level 0 1) (scaledVecN e level 0 0))

/-- IEEE-valued shifted angle samples. -/
noncomputable def ellipseAnglesN (e : EigResult) (level : ℝ) (n : ℕ) :
    List (Option ℝ) :=
  (npLinspace 0 (2 * Real.pi) (evenCount n)).map fun t =>
    nadd (some t) (theta0N e level)

/-- IEEE-valued position cos(angle)·eigvec[:,0] + sin(angle)·eigvec[:,1]. -/
noncomputable def posPointN (e : EigResult) (level : ℝ) (phi : Option ℝ)
    (i : Fin 2) : Option ℝ :=
  nadd (nmul (ncos phi) (scaledVecN e level i 0))
    (nmul (nsin phi) (scaledVecN e level i 1))

noncomputable def posListN (e : EigResult) (level : ℝ) (n : ℕ) :
    List (Fin 2 → Option ℝ) :=
  (ellipseAnglesN e level n).map fun phi => fun i => posPointN e level phi i

/-- IEEE-valued embedding of ellipse_bounds, identical in structure to the
real-valued one. -/
noncomputable def ellipse_boundsN (e : EigResult) (level : ℝ) (n : ℕ) :
    List (Option ℝ) × List (Option ℝ) × List (Option ℝ) :=
  ((((posListN e level n).take (evenCount n / 2)).map fun q => q 0),
   (((posListN e level n).take (evenCount n / 2)).map fun q => q 1),
   (((posListN e level n).drop (evenCount n / 2)).reverse.map fun q => q 1))

theorem nmul_none_right (x : Option ℝ) : nmul x none = none := by
  cases x <;> rfl

theorem nmul_none_left (x : Option ℝ) : nmul none x = none := rfl

theorem nadd_none_right (x : Option ℝ) : nadd x none = none := by
  cases x <;> rfl

theorem nadd_none_left (x : Option ℝ) : nadd none x = none := rfl

theorem ndiv_none_right (x : Option ℝ) : ndiv x none = none := by
  cases x <;> rfl

theorem ndiv_none_left (x : Option ℝ) : ndiv none x = none := rfl

theorem theta0N_eq_none (e : EigResult) (level : ℝ) (hlevel : 0 < level)
    (hneg : e.lam 0 < 0 ∨ e.lam 1 < 0) : theta0N e level = none := by
  have hscale : ∀ j, e.lam j < 0 →
      nsqrt (ndiv (some level) (some (e.lam j))) = none := by
    intro j hj
    rw [ndiv, if_neg (ne_of_lt hj)]
    rw [nsqrt, if_neg (not_le.mpr (div_neg_of_pos_of_neg hlevel hj))]
  rcases hneg with h0 | h1
  · have ha : scaledVecN e level 0 0 = none := by
      rw [scaledVecN, hscale 0 h0, nmul_none_right]
    rw [theta0N, ha, ndiv_none_right]
    rfl
  · have hb : scaledVecN e level 0 1 = none := by
      rw [scaledVecN, hscale 1 h1, nmul_none_right]
    rw [theta0N, hb, ndiv_none_left]
    rfl

theorem posPointN_none (e : EigResult) (level : ℝ) (i : Fin 2) :
    posPointN e level none i = none := by
  rw [posPointN]
  rw [show ncos none = none from rfl, nmul_none_left, nadd_none_left]

/-- C4 (amended): for a positive level and an eigendecomposition with a
negative eigenvalue (P not positive definite), ellipse_bounds raises
nothing: it returns the usual three sequences of length N/2, every entry of
which is NaN — a corrupted result, not a NumericalError. -/
theorem ellipse_boundsN_nan (e : EigResult) (level : ℝ) (n : ℕ)
    (hlevel : 0 < level) (hneg : e.lam 0 < 0 ∨ e.lam 1 < 0) :
    (ellipse_boundsN e level n).1.length = evenCount n / 2 ∧
    (ellipse_boundsN e level n).2.1.length = evenCount n / 2 ∧
    (ellipse_boundsN e level n).2.2.length = evenCount n / 2 ∧
    (∀ x ∈ (ellipse_boundsN e level n).1, x = none) ∧
    (∀ y ∈ (ellipse_boundsN e level n).2.1, y = none) ∧
    (∀ y ∈ (ellipse_boundsN e level n).2.2, y = none) := by
  have heven := evenCount_even n
  have hplen : (posListN e level n).length = evenCount n := by
    rw [posListN, List.length_map, ellipseAnglesN, List.length_map,
      npLinspace_length]
  have hpos : ∀ q ∈ posListN e level n, q = fun _ => (none : Option ℝ) := by
    intro q hq
    rw [posListN] at hq
    obtain ⟨phi, hphi, rfl⟩ := List.mem_map.mp hq
    rw [ellipseAnglesN] at hphi
    obtain ⟨t, -, rfl⟩ := List.mem_map.mp hphi
    funext i
    rw [theta0N_eq_none e level hlevel hneg, nadd_none_right, posPointN_none]
  refine ⟨?_, ?_, ?_, ?_, ?_, ?_⟩
  · rw [ellipse_boundsN, List.length_map, List.length_take, hplen]
    omega
  · rw [ellipse_boundsN, List.length_map, List.length_take, hplen]
    omega
  · rw [ellipse_boundsN, List.length_map, List.length_reverse,
      List.length_drop, hplen]
    omega
  · intro x hx
    rw [ellipse_boundsN] at hx
    obtain ⟨q, hq, rfl⟩ := List.mem_map.mp hx
    rw [hpos q (List.mem_of_mem_take hq)]
  · intro y hy
    rw [ellipse_boundsN] at hy
    obtain ⟨q, hq, rfl⟩ := List.mem_map.mp hy
    rw [hpos q (List.mem_of_mem_take hq)]
  · intro y hy
    rw [ellipse_boundsN] at hy
    obtain ⟨q, hq, rfl⟩ := List.mem_map.mp hy
    rw [hpos q (List.mem_of_mem_drop (List.mem_reverse.mp hq))]

theorem ellipse_boundsN_nan_witness :
    (0 : ℝ) < 1 ∧
    (((![(1 : ℝ), -1] : Fin 2 → ℝ) 0 < 0) ∨
      ((![(1 : ℝ), -1] : Fin 2 → ℝ) 1 < 0)) ∧
    ((ellipse_boundsN ⟨![1, -1], 1⟩ 1 4).1.length = evenCount 4 / 2 ∧
      (ellipse_boundsN ⟨![1, -1], 1⟩ 1 4).2.1.length = evenCount 4 / 2 ∧
      (ellipse_boundsN ⟨![1, -1], 1⟩ 1 4).2.2.length = evenCount 4 / 2 ∧
      (∀ x ∈ (ellipse_boundsN ⟨![1, -1], 1⟩ 1 4).1, x = none) ∧
      (∀ y ∈ (ellipse_boundsN ⟨![1, -1], 1⟩ 1 4).2.1, y = none) ∧
      (∀ y ∈ (ellipse_boundsN ⟨![1, -1], 1⟩ 1 4).2.2, y = none)) := by
  have hneg : ((![(1 : ℝ), -1] : Fin 2 → ℝ) 0 < 0) ∨
      ((![(1 : ℝ), -1] : Fin 2 → ℝ) 1 < 0) := by
    right
    norm_num
  exact ⟨one_pos, hneg,
    ellipse_boundsN_nan ⟨![1, -1], 1⟩ 1 4 one_pos hneg⟩

/-- C4 counterexample: the symmetric non-positive-definite matrix
P = [[1,0],[0,−1]] (eigendecomposition λ = (1,−1), V = identity) with level
1 and n = 4 makes ellipse_bounds return a normal, well-shaped triple of
length-2 sequences whose entries are all NaN — no NumericalError (or any
exception) is raised, and a corrupted result is returned. -/
theorem ellipse_boundsN_counterexample :
    (!![(1 : ℝ), 0; 0, -1]ᵀ = !![(1 : ℝ), 0; 0, -1]) ∧
    (∀ i j, (!![(1 : ℝ), 0; 0, -1] * (1 : Matrix (Fin 2) (Fin 2) ℝ)) i j =
      (![1, -1] : Fin 2 → ℝ) j * (1 : Matrix (Fin 2) (Fin 2) ℝ) i j) ∧
    ((1 : Matrix (Fin 2) (Fin 2) ℝ)ᵀ * 1 = 1) ∧
    (ellipse_boundsN ⟨![1, -1], 1⟩ 1 4).1 = [none, none] ∧
    (ellipse_boundsN ⟨![1, -1], 1⟩ 1 4).2.1 = [none, none] ∧
    (ellipse_boundsN ⟨![1, -1], 1⟩ 1 4).2.2 = [none, none] := by
  have hneg : (![(1 : ℝ), -1] : Fin 2 → ℝ) 1 < 0 := by norm_num
  have hth : theta0N ⟨![1, -1], 1⟩ 1 = none :=
    theta0N_eq_none ⟨![1, -1], 1⟩ 1 one_pos (Or.inr hneg)
  have hangles : ellipseAnglesN ⟨![1, -1], 1⟩ 1 4 =
      (npLinspace 0 (2 * Real.pi) 4).map fun _ => (none : Option ℝ) := by
    rw [ellipseAnglesN, show evenCount 4 = 4 from rfl]
    refine List.map_congr_left fun t _ => ?_
    rw [hth, nadd_none_right]
  have hpos : ∀ q ∈ posListN ⟨![1, -1], 1⟩ 1 4,
      q = fun _ => (none : Option ℝ) := by
    intro q hq
    rw [posListN, hangles, List.map_map] at hq
    obtain ⟨t, -, rfl⟩ := List.mem_map.mp hq
    funext i
    exact posPointN_none _ _ _
  have hplen : (posListN ⟨![1, -1], 1⟩ 1 4).length = 4 := by
    rw [posListN, List.length_map, hangles, List.length_map,
      npLinspace_length]
  have hfinal : ∀ (l : List (Fin 2 → Option ℝ)) (i : Fin 2),
      (∀ q ∈ l, q = fun _ => (none : Option ℝ)) →
      l.map (fun q => q i) = List.replicate l.length none := by
    intro l i h
    calc l.map (fun q => q i)
        = l.map (fun _ => (none : Option ℝ)) :=
          List.map_congr_left fun q hq => by rw [h q hq]
      _ = List.replicate l.length none := List.map_const' _ _
  refine ⟨?_, ?_, ?_, ?_, ?_, ?_⟩
  · ext i j
    fin_cases i <;> fin_cases j <;> rfl
  · intro i j
    rw [Matrix.mul_one]
    fin_cases i <;> fin_cases j <;> simp [Matrix.one_apply]
  · rw [Matrix.transpose_one, Matrix.one_mul]
  · rw [ellipse_boundsN,
      hfinal _ 0 (fun q hq => hpos q (List.mem_of_mem_take hq)),
      List.length_take, hplen]
    rfl
  · rw [ellipse_boundsN,
      hfinal _ 1 (fun q hq => hpos q (List.mem_of_mem_take hq)),
      List.length_take, hplen]
    rfl
  · rw [ellipse_boundsN,
      hfinal _ 1 (fun q hq =>
        hpos q (List.mem_of_mem_drop (List.mem_reverse.mp hq))),
      List.length_reverse, List.length_drop, hplen]
    rfl

end SafeLearning
